import Mathlib

/-!
Verification of the hasoon2 bookkeeping application.

The development shallowly embeds the three parts of the program that the
specification's testable properties talk about:

* the in-memory record store (`MemStorage` in the storage module): two
  insertion-ordered maps keyed by auto-incremented numeric ids, with
  create / get / update / delete / list-all / clear-all operations;
* the summary computation of the `GET /api/summary` route handler
  (`routes.ts`): totals over the two record lists;
* the grouping computations of the client view (`home.tsx`): the two-level
  date/name grouping of the daily-operations view (`customersByDate`,
  `groupedByName`, `recentDates`) and the by-name grouping used by the PDF
  report (`groupedCustomers`).

Modelling conventions:

* A JS `Map` is an insertion-ordered association list with unique keys
  (`Map.set` overwrites in place, `Map.delete` removes the entry).
* `amount` is a decimal string in the source (schema type `decimal(10,2)`)
  and is parsed to a number only for aggregation; we model the string by its
  exact rational value, which is the specification's stated arithmetic
  semantics ("exact decimal arithmetic").  The discrepancy between this
  exact semantics and the `parseFloat` / binary floating-point arithmetic
  the code actually performs is treated separately (see `IsBinary64` and
  `reduceAmounts` below).
* `createdAt` is an epoch-millisecond timestamp (a `Nat`).  The display
  key `formatDate(createdAt)` (format `DD/MM/YYYY`) is in bijection with
  the calendar day, so it is modelled by the day number
  `createdAt / msPerDay`; the fixed display time zone is taken as UTC.
* `paymentStatus` is the raw string field of the record ("paid"/"unpaid").
-/

namespace Hasoon

/-- Customer transaction record, from the `customers` table of
`shared/schema.ts` (fields `id`, `name`, `goodsType`, `carCount`, `amount`,
`paymentStatus`, `createdAt`). -/
structure Customer where
  id : Nat
  name : String
  goodsType : String
  carCount : Int
  amount : ℚ
  paymentStatus : String
  createdAt : Nat
deriving DecidableEq

/-- Expense record, from the `expenses` table of `shared/schema.ts`. -/
structure Expense where
  id : Nat
  description : String
  amount : ℚ
  createdAt : Nat
deriving DecidableEq

/-- Insert payload for a customer (`InsertCustomer`): the schema with `id`
and `createdAt` omitted. -/
structure InsertCustomer where
  name : String
  goodsType : String
  carCount : Int
  amount : ℚ
  paymentStatus : String
deriving DecidableEq

/-- Insert payload for an expense (`InsertExpense`). -/
structure InsertExpense where
  description : String
  amount : ℚ
deriving DecidableEq

/-- A partial customer update (`Partial InsertCustomer` as produced by
`insertCustomerSchema.partial().parse`): each field is optionally present. -/
structure CustomerPatch where
  name : Option String
  goodsType : Option String
  carCount : Option Int
  amount : Option ℚ
  paymentStatus : Option String
deriving DecidableEq

/-- A partial expense update (`Partial InsertExpense`). -/
structure ExpensePatch where
  description : Option String
  amount : Option ℚ
deriving DecidableEq

/-- JS `Map.get`. -/
def mapGet {α : Type} (m : List (Nat × α)) (k : Nat) : Option α :=
  match m with
  | [] => none
  | (k', v) :: rest => if k' == k then some v else mapGet rest k

/-- JS `Map.set`: overwrite in place when the key is present (insertion
order is preserved), append otherwise. -/
def mapSet {α : Type} (m : List (Nat × α)) (k : Nat) (v : α) : List (Nat × α) :=
  match m with
  | [] => [(k, v)]
  | (k', w) :: rest => if k' == k then (k, v) :: rest else (k', w) :: mapSet rest k v

/-- JS `Map.delete`: returns whether the key was present together with the
map with that entry removed. -/
def mapDelete {α : Type} (m : List (Nat × α)) (k : Nat) : Bool × List (Nat × α) :=
  match m with
  | [] => (false, [])
  | (k', w) :: rest =>
    if k' == k then (true, rest)
    else
      let r := mapDelete rest k
      (r.1, (k', w) :: r.2)

/-- JS `Array.from(map.values())`: the values in insertion order. -/
def mapValues {α : Type} (m : List (Nat × α)) : List α :=
  m.map Prod.snd

/-- The in-memory store `MemStorage`: two keyed collections and their two
id counters. -/
structure MemStorage where
  customers : List (Nat × Customer)
  expenses : List (Nat × Expense)
  currentCustomerId : Nat
  currentExpenseId : Nat
deriving DecidableEq

/-- The freshly constructed store (`new MemStorage()`). -/
def emptyStorage : MemStorage :=
  { customers := [], expenses := [], currentCustomerId := 1, currentExpenseId := 1 }

/-- Model of `MemStorage.getAllCustomers`: all values, sorted by `createdAt`
descending (the JS comparator `(a, b) => time(b) - time(a)`, a stable sort). -/
def getAllCustomers (s : MemStorage) : List Customer :=
  (mapValues s.customers).insertionSort (fun a b => b.createdAt ≤ a.createdAt)

/-- Model of `MemStorage.getAllExpenses`. -/
def getAllExpenses (s : MemStorage) : List Expense :=
  (mapValues s.expenses).insertionSort (fun a b => b.createdAt ≤ a.createdAt)

/-- Model of `MemStorage.createCustomer`: assign `id = currentCustomerId++` and
`createdAt = now` (`now` is passed explicitly here), store, return. -/
def createCustomer (s : MemStorage) (ins : InsertCustomer) (now : Nat) :
    Customer × MemStorage :=
  let i := s.currentCustomerId
  let c : Customer :=
    { id := i, name := ins.name, goodsType := ins.goodsType,
      carCount := ins.carCount, amount := ins.amount,
      paymentStatus := ins.paymentStatus, createdAt := now }
  (c, { s with customers := mapSet s.customers i c, currentCustomerId := i + 1 })

/-- Model of `MemStorage.createExpense`. -/
def createExpense (s : MemStorage) (ins : InsertExpense) (now : Nat) :
    Expense × MemStorage :=
  let i := s.currentExpenseId
  let e : Expense :=
    { id := i, description := ins.description, amount := ins.amount, createdAt := now }
  (e, { s with expenses := mapSet s.expenses i e, currentExpenseId := i + 1 })

/-- The JS spread `{ ...customer, ...updates }` for a customer: each field
present in the patch overrides, absent fields keep the stored value; `id`
and `createdAt` are not part of the patch type. -/
def applyCustomerPatch (c : Customer) (u : CustomerPatch) : Customer :=
  { c with
    name := u.name.getD c.name,
    goodsType := u.goodsType.getD c.goodsType,
    carCount := u.carCount.getD c.carCount,
    amount := u.amount.getD c.amount,
    paymentStatus := u.paymentStatus.getD c.paymentStatus }

/-- The JS spread `{ ...expense, ...updates }` for an expense. -/
def applyExpensePatch (e : Expense) (u : ExpensePatch) : Expense :=
  { e with
    description := u.description.getD e.description,
    amount := u.amount.getD e.amount }

/-- Model of `MemStorage.updateCustomer`: not-found yields `none` and leaves the
store untouched; otherwise merge the patch over the record and store it. -/
def updateCustomer (s : MemStorage) (i : Nat) (u : CustomerPatch) :
    Option Customer × MemStorage :=
  match mapGet s.customers i with
  | none => (none, s)
  | some c =>
    let c' := applyCustomerPatch c u
    (some c', { s with customers := mapSet s.customers i c' })

/-- Model of `MemStorage.updateExpense`. -/
def updateExpense (s : MemStorage) (i : Nat) (u : ExpensePatch) :
    Option Expense × MemStorage :=
  match mapGet s.expenses i with
  | none => (none, s)
  | some e =>
    let e' := applyExpensePatch e u
    (some e', { s with expenses := mapSet s.expenses i e' })

/-- Model of `MemStorage.deleteCustomer`: `this.customers.delete(id)`. -/
def deleteCustomer (s : MemStorage) (i : Nat) : Bool × MemStorage :=
  let r := mapDelete s.customers i
  (r.1, { s with customers := r.2 })

/-- Model of `MemStorage.deleteExpense`. -/
def deleteExpense (s : MemStorage) (i : Nat) : Bool × MemStorage :=
  let r := mapDelete s.expenses i
  (r.1, { s with expenses := r.2 })

/-- Model of `MemStorage.clearAllData`: clear both maps and reset both counters to 1. -/
def clearAllData (s : MemStorage) : MemStorage :=
  { s with customers := [], expenses := [], currentCustomerId := 1, currentExpenseId := 1 }

/-- The `DELETE /api/customers/:id` handler of `routes.ts`: status 200 on
success, 404 ("Customer not found") when the store reports not-found. -/
def deleteCustomerRoute (s : MemStorage) (i : Nat) : Nat × MemStorage :=
  let r := deleteCustomer s i
  (if r.1 then 200 else 404, r.2)

/-- The `totalRevenue` sum of the `GET /api/summary` handler:
`customers.reduce((sum, c) => sum + parseFloat(c.amount), 0)`, under the
exact-decimal reading of the amounts. -/
def totalRevenue (C : List Customer) : ℚ :=
  C.foldl (fun sum c => sum + c.amount) 0

/-- The `totalExpenses` sum of the summary handler. -/
def totalExpensesOf (E : List Expense) : ℚ :=
  E.foldl (fun sum e => sum + e.amount) 0

/-- The `totalCars` sum of the summary handler. -/
def totalCarsOf (C : List Customer) : Int :=
  C.foldl (fun sum c => sum + c.carCount) 0

/-- The JSON object returned by `GET /api/summary`. -/
structure Summary where
  totalRevenue : ℚ
  totalExpenses : ℚ
  netTotal : ℚ
  totalCars : Int
  customerCount : Nat
  expenseCount : Nat
deriving DecidableEq

/-- The `GET /api/summary` computation over the two record lists. -/
def summaryOf (C : List Customer) (E : List Expense) : Summary :=
  { totalRevenue := totalRevenue C,
    totalExpenses := totalExpensesOf E,
    netTotal := totalRevenue C - totalExpensesOf E,
    totalCars := totalCarsOf C,
    customerCount := C.length,
    expenseCount := E.length }

end Hasoon

namespace Hasoon

/-- Milliseconds per calendar day. -/
def msPerDay : Nat := 86400000

/-- The date key `formatDate(createdAt)` of `home.tsx`: the `DD/MM/YYYY`
display string is in bijection with the calendar day, modelled as the day
number of the timestamp. -/
def dateKey (t : Nat) : Nat := t / msPerDay

/-- One step of the `customersByDate` reduce of `home.tsx`: push the
customer onto the bucket of its date key, appending a new bucket at the end
when the key is new (JS object keys enumerate in insertion order). -/
def pushDate (acc : List (Nat × List Customer)) (c : Customer) :
    List (Nat × List Customer) :=
  match acc with
  | [] => [(dateKey c.createdAt, [c])]
  | (k, b) :: rest =>
    if k == dateKey c.createdAt then (k, b ++ [c]) :: rest
    else (k, b) :: pushDate rest c

/-- Model of `customersByDate` in `home.tsx`: partition the customer list by date
key, buckets in first-seen order, bucket contents in list order. -/
def customersByDate (C : List Customer) : List (Nat × List Customer) :=
  C.foldl pushDate []

/-- A name-group of the daily-operations view (the accumulator object of
the `groupedByName` reduce in `home.tsx`). -/
structure NameGroup where
  name : String
  goodsType : String
  totalCars : Int
  totalAmount : ℚ
  entries : List Customer
  allPaid : Bool
deriving DecidableEq

/-- The freshly created group object of the `groupedByName` reduce (before
the customer is accumulated into it). -/
def initGroup (c : Customer) : NameGroup :=
  { name := c.name, goodsType := c.goodsType, totalCars := 0, totalAmount := 0,
    entries := [], allPaid := true }

/-- The accumulation step of the `groupedByName` reduce: add the car count
and amount, append the entry, and force `allPaid` to `false` when the
entry's payment status is `"unpaid"`. -/
def addToGroup (g : NameGroup) (c : Customer) : NameGroup :=
  { g with
    totalCars := g.totalCars + c.carCount,
    totalAmount := g.totalAmount + c.amount,
    entries := g.entries ++ [c],
    allPaid := if c.paymentStatus == "unpaid" then false else g.allPaid }

/-- One step of the `groupedByName` reduce: accumulate into the existing
group of the customer's name, creating it (at the end, in insertion order)
when absent. -/
def pushName (acc : List (String × NameGroup)) (c : Customer) :
    List (String × NameGroup) :=
  match acc with
  | [] => [(c.name, addToGroup (initGroup c) c)]
  | (n, g) :: rest =>
    if n == c.name then (n, addToGroup g c) :: rest
    else (n, g) :: pushName rest c

/-- Model of `groupedByName` in `home.tsx`: group one date bucket by customer name. -/
def groupedByName (L : List Customer) : List (String × NameGroup) :=
  L.foldl pushName []

/-- Access a name-group by its key (`acc[customer.name]`). -/
def findGroup (acc : List (String × NameGroup)) (n : String) : Option NameGroup :=
  match acc with
  | [] => none
  | (n', g) :: rest => if n' == n then some g else findGroup rest n

/-- The comparator data of the `recentDates` sort in `home.tsx`:
`new Date(customersByDate[k][0].createdAt).getTime()`, the timestamp of the
first entry of the bucket of key `k` (0 for a missing or empty bucket,
which never occurs for keys of `customersByDate`). -/
def firstTime (bs : List (Nat × List Customer)) (k : Nat) : Nat :=
  match bs with
  | [] => 0
  | (k', b) :: rest =>
    if k' == k then
      match b with
      | [] => 0
      | c :: _ => c.createdAt
    else firstTime rest k

/-- Model of `recentDates` in `home.tsx`: the date keys sorted by the timestamp of
their bucket's first entry, descending (stable sort), then `slice(0, 3)`. -/
def recentDates (C : List Customer) : List Nat :=
  let byDate := customersByDate C
  ((byDate.map Prod.fst).insertionSort
    (fun a b => firstTime byDate b ≤ firstTime byDate a)).take 3

/-- A group of the PDF report (`groupedCustomers` accumulator object in
`generatePDFMutation` of `home.tsx`) — note: no date level and no
`allPaid` field. -/
structure PdfGroup where
  name : String
  goodsType : String
  totalCars : Int
  totalAmount : ℚ
  entries : List Customer
deriving DecidableEq

/-- The freshly created PDF group object (goodsType taken from the first
entry seen for the name). -/
def initPdfGroup (c : Customer) : PdfGroup :=
  { name := c.name, goodsType := c.goodsType, totalCars := 0, totalAmount := 0,
    entries := [] }

/-- The accumulation step of the `groupedCustomers` reduce. -/
def addToPdfGroup (g : PdfGroup) (c : Customer) : PdfGroup :=
  { g with
    totalCars := g.totalCars + c.carCount,
    totalAmount := g.totalAmount + c.amount,
    entries := g.entries ++ [c] }

/-- One step of the `groupedCustomers` reduce of the PDF report: keyed by
`customer.name` only. -/
def pushPdf (acc : List (String × PdfGroup)) (c : Customer) :
    List (String × PdfGroup) :=
  match acc with
  | [] => [(c.name, addToPdfGroup (initPdfGroup c) c)]
  | (n, g) :: rest =>
    if n == c.name then (n, addToPdfGroup g c) :: rest
    else (n, g) :: pushPdf rest c

/-- Model of `groupedCustomers` of the PDF report in `home.tsx`: the whole customer
list grouped by name, with no date level. -/
def pdfGroups (C : List Customer) : List (String × PdfGroup) :=
  C.foldl pushPdf []

/-- Access a PDF group by its key. -/
def findPdfGroup (acc : List (String × PdfGroup)) (n : String) : Option PdfGroup :=
  match acc with
  | [] => none
  | (n', g) :: rest => if n' == n then some g else findPdfGroup rest n

end Hasoon

namespace Hasoon

/-- C1: for every customer list C and expense list E, the summary computed
by the `GET /api/summary` handler satisfies
`netTotal = totalRevenue - totalExpenses` exactly, where `totalRevenue` and
`totalExpenses` are the sums of the parsed amounts of C and E. -/
theorem summary_netTotal_eq_sub (C : List Customer) (E : List Expense) :
    (summaryOf C E).netTotal = (summaryOf C E).totalRevenue - (summaryOf C E).totalExpenses :=
  rfl

/-- C7: after `clearAllData`, both collections are empty and both id
counters are back at 1: the next created customer and the next created
expense each receive id 1. -/
theorem clearAllData_resets (s : MemStorage) (insC : InsertCustomer)
    (insE : InsertExpense) (t u : Nat) :
    (clearAllData s).customers = [] ∧ (clearAllData s).expenses = [] ∧
    (clearAllData s).currentCustomerId = 1 ∧ (clearAllData s).currentExpenseId = 1 ∧
    (createCustomer (clearAllData s) insC t).1.id = 1 ∧
    (createExpense (clearAllData s) insE u).1.id = 1 :=
  ⟨rfl, rfl, rfl, rfl, rfl, rfl⟩

/-- C10: the two record kinds are isolated in the store: every customer
operation leaves the expense collection and the expense id counter
unchanged, and every expense operation leaves the customer collection and
the customer id counter unchanged. -/
theorem storage_kind_isolation :
    (∀ (s : MemStorage) (ins : InsertCustomer) (t : Nat),
      (createCustomer s ins t).2.expenses = s.expenses ∧
      (createCustomer s ins t).2.currentExpenseId = s.currentExpenseId) ∧
    (∀ (s : MemStorage) (i : Nat) (u : CustomerPatch),
      (updateCustomer s i u).2.expenses = s.expenses ∧
      (updateCustomer s i u).2.currentExpenseId = s.currentExpenseId) ∧
    (∀ (s : MemStorage) (i : Nat),
      (deleteCustomer s i).2.expenses = s.expenses ∧
      (deleteCustomer s i).2.currentExpenseId = s.currentExpenseId) ∧
    (∀ (s : MemStorage) (ins : InsertExpense) (t : Nat),
      (createExpense s ins t).2.customers = s.customers ∧
      (createExpense s ins t).2.currentCustomerId = s.currentCustomerId) ∧
    (∀ (s : MemStorage) (i : Nat) (u : ExpensePatch),
      (updateExpense s i u).2.customers = s.customers ∧
      (updateExpense s i u).2.currentCustomerId = s.currentCustomerId) ∧
    (∀ (s : MemStorage) (i : Nat),
      (deleteExpense s i).2.customers = s.customers ∧
      (deleteExpense s i).2.currentCustomerId = s.currentCustomerId) := by
  refine ⟨fun s ins t => ⟨rfl, rfl⟩, fun s i u => ?_, fun s i => ⟨rfl, rfl⟩,
    fun s ins t => ⟨rfl, rfl⟩, fun s i u => ?_, fun s i => ⟨rfl, rfl⟩⟩
  · cases h : mapGet s.customers i <;> simp [updateCustomer, h]
  · cases h : mapGet s.expenses i <;> simp [updateExpense, h]

/-- Dyadic rationals.  Every finite IEEE-754 binary64 value — the value
domain of JS `parseFloat` results and of JS number addition — is of the
form `m * 2 ^ e`. -/
def IsBinary64 (q : ℚ) : Prop :=
  ∃ (m : ℤ) (e : ℤ), q = (m : ℚ) * 2 ^ e

/-- The shape of the summary sums of `routes.ts`
(`list.reduce((sum, x) => sum + parseFloat(x.amount), 0)`), parameterised
by the numeric semantics: `add` models JS number addition and `p` models
`parseFloat` on the amount string with exact value `a`. -/
def reduceAmounts (add : ℚ → ℚ → ℚ) (p : ℚ → ℚ) (amounts : List ℚ) : ℚ :=
  amounts.foldl (fun sum a => add sum (p a)) 0

/-- C3 (refutation of exactness for the code's arithmetic): for any
interpretation of `parseFloat` and of JS `+` whose results are binary64
representable — as the IEEE-754 semantics of `routes.ts`/`home.tsx` are —
the computed sum of the amounts `"0.1"` and `"0.2"` cannot equal the exact
decimal sum `0.3`, because `3/10` is not a dyadic rational while every
computed result is. -/
theorem reduceAmounts_not_exact (add : ℚ → ℚ → ℚ) (p : ℚ → ℚ)
    (hadd : ∀ a b, IsBinary64 a → IsBinary64 b → IsBinary64 (add a b))
    (hp : ∀ a, IsBinary64 (p a)) :
    reduceAmounts add p [1/10, 2/10] ≠ 1/10 + 2/10 := by
  have h0 : IsBinary64 0 := ⟨0, 0, by norm_num⟩
  have hres : IsBinary64 (reduceAmounts add p [1/10, 2/10]) := by
    simpa [reduceAmounts] using hadd _ _ (hadd _ _ h0 (hp _)) (hp _)
  intro heq
  rw [heq] at hres
  obtain ⟨m, e, he⟩ := hres
  have h310 : ((3 : ℚ) / 10) = (m : ℚ) * 2 ^ e := by rw [← he]; norm_num
  rcases le_or_lt 0 e with hpos | hneg
  · lift e to ℕ using hpos
    have hq : (3 : ℚ) = (m : ℚ) * 2 ^ (e : ℕ) * 10 := by
      rw [zpow_natCast] at h310
      field_simp at h310
      linarith
    have hz : (3 : ℤ) = m * 2 ^ (e : ℕ) * 10 := by exact_mod_cast hq
    have hdvd : (10 : ℤ) ∣ 3 := ⟨m * 2 ^ (e : ℕ), by linarith⟩
    omega
  · set k : ℕ := (-e).toNat with hk
    have hek : e = -(k : ℤ) := by omega
    have h2 : ((3 : ℚ) / 10) * 2 ^ (k : ℕ) = (m : ℚ) := by
      rw [h310, hek, zpow_neg, zpow_natCast]
      field_simp
    have hz : (3 : ℤ) * 2 ^ k = m * 10 := by
      have hq : (3 : ℚ) * 2 ^ k = (m : ℚ) * 10 := by
        field_simp at h2
        linarith
      exact_mod_cast hq
    have h5 : (5 : ℤ) ∣ 3 * 2 ^ k := ⟨m * 2, by linarith⟩
    have hp5 : Prime (5 : ℤ) := by
      rw [Int.prime_iff_natAbs_prime]
      norm_num
    rcases hp5.dvd_mul.mp h5 with h | h
    · omega
    · have h52 : (5 : ℤ) ∣ 2 := hp5.dvd_of_dvd_pow h
      omega

end Hasoon

namespace Hasoon

/-- Satisfiability of the hypotheses of `reduceAmounts_not_exact`, checked
at a concrete interpretation. -/
theorem reduceAmounts_not_exact_witness :
    (∀ a b : ℚ, IsBinary64 a → IsBinary64 b → IsBinary64 ((fun _ _ => (0 : ℚ)) a b)) ∧
    (∀ a : ℚ, IsBinary64 ((fun _ => (0 : ℚ)) a)) ∧
    reduceAmounts (fun _ _ => (0 : ℚ)) (fun _ => (0 : ℚ)) [1/10, 2/10] ≠ 1/10 + 2/10 :=
  ⟨fun _ _ _ _ => ⟨0, 0, by norm_num⟩, fun _ => ⟨0, 0, by norm_num⟩,
    reduceAmounts_not_exact (fun _ _ => (0 : ℚ)) (fun _ => (0 : ℚ))
      (fun _ _ _ _ => ⟨0, 0, by norm_num⟩) (fun _ => ⟨0, 0, by norm_num⟩)⟩

lemma mapGet_mapSet_self {α : Type} (m : List (Nat × α)) (k : Nat) (v : α) :
    mapGet (mapSet m k v) k = some v := by
  induction m with
  | nil => simp [mapSet, mapGet]
  | cons p rest ih =>
    obtain ⟨k', w⟩ := p
    by_cases h : k' = k
    · subst h; simp [mapSet, mapGet]
    · simp [mapSet, mapGet, h, ih]

/-- C6: a partial update merges the supplied fields over the stored record
and preserves `id` and `createdAt` and every unsupplied field — for
customers and for expenses alike.  (`Option.getD`: a supplied field is
replaced by the patch value, an unsupplied one keeps the stored value.) -/
theorem update_merges_and_preserves :
    (∀ (s : MemStorage) (i : Nat) (u : CustomerPatch) (c : Customer),
      mapGet s.customers i = some c →
      ∃ c', (updateCustomer s i u).1 = some c' ∧
        mapGet (updateCustomer s i u).2.customers i = some c' ∧
        c'.id = c.id ∧ c'.createdAt = c.createdAt ∧
        c'.name = u.name.getD c.name ∧
        c'.goodsType = u.goodsType.getD c.goodsType ∧
        c'.carCount = u.carCount.getD c.carCount ∧
        c'.amount = u.amount.getD c.amount ∧
        c'.paymentStatus = u.paymentStatus.getD c.paymentStatus) ∧
    (∀ (s : MemStorage) (i : Nat) (u : ExpensePatch) (e : Expense),
      mapGet s.expenses i = some e →
      ∃ e', (updateExpense s i u).1 = some e' ∧
        mapGet (updateExpense s i u).2.expenses i = some e' ∧
        e'.id = e.id ∧ e'.createdAt = e.createdAt ∧
        e'.description = u.description.getD e.description ∧
        e'.amount = u.amount.getD e.amount) := by
  constructor
  · intro s i u c h
    refine ⟨applyCustomerPatch c u, ?_, ?_, rfl, rfl, rfl, rfl, rfl, rfl, rfl⟩
    · simp [updateCustomer, h]
    · simp [updateCustomer, h, mapGet_mapSet_self]
  · intro s i u e h
    refine ⟨applyExpensePatch e u, ?_, ?_, rfl, rfl, rfl, rfl⟩
    · simp [updateExpense, h]
    · simp [updateExpense, h, mapGet_mapSet_self]

/-- A stored customer record used by the concrete check of several claims. -/
def sampleA : Customer :=
  { id := 1, name := "A", goodsType := "X", carCount := 2, amount := 100,
    paymentStatus := "paid", createdAt := 5 }

/-- A store holding `sampleA` under its id. -/
def sampleStore : MemStorage :=
  { customers := [(1, sampleA)], expenses := [], currentCustomerId := 2,
    currentExpenseId := 1 }

/-- A patch supplying `name` and `paymentStatus` only. -/
def samplePatch : CustomerPatch :=
  { name := some "B", goodsType := none, carCount := none, amount := none,
    paymentStatus := some "unpaid" }

/-- Satisfiability of the hypothesis of `update_merges_and_preserves`,
checked at a concrete store, id and patch. -/
theorem update_merges_and_preserves_witness :
    mapGet sampleStore.customers 1 = some sampleA ∧
    (∃ c', (updateCustomer sampleStore 1 samplePatch).1 = some c' ∧
      mapGet (updateCustomer sampleStore 1 samplePatch).2.customers 1 = some c' ∧
      c'.id = sampleA.id ∧ c'.createdAt = sampleA.createdAt ∧
      c'.name = samplePatch.name.getD sampleA.name ∧
      c'.goodsType = samplePatch.goodsType.getD sampleA.goodsType ∧
      c'.carCount = samplePatch.carCount.getD sampleA.carCount ∧
      c'.amount = samplePatch.amount.getD sampleA.amount ∧
      c'.paymentStatus = samplePatch.paymentStatus.getD sampleA.paymentStatus) :=
  ⟨rfl, update_merges_and_preserves.1 sampleStore 1 samplePatch sampleA rfl⟩

lemma mem_of_mem_mapDelete {α : Type} (m : List (Nat × α)) (k : Nat) :
    ∀ p ∈ (mapDelete m k).2, p ∈ m := by
  induction m with
  | nil => simp [mapDelete]
  | cons q rest ih =>
    obtain ⟨k', w⟩ := q
    intro p hp
    by_cases h : k' = k
    · subst h
      simp only [mapDelete, beq_self_eq_true, if_true] at hp
      exact List.mem_cons_of_mem _ hp
    · simp only [mapDelete, beq_eq_false_iff_ne, ne_eq, h, not_false_eq_true,
        beq_iff_eq, if_false] at hp
      rcases List.mem_cons.mp hp with h1 | h1
      · exact h1 ▸ List.mem_cons_self _ _
      · exact List.mem_cons_of_mem _ (ih p h1)

lemma key_ne_of_mem_mapDelete {α : Type} (m : List (Nat × α)) (k : Nat)
    (h : (m.map Prod.fst).Nodup) : ∀ p ∈ (mapDelete m k).2, p.1 ≠ k := by
  induction m with
  | nil => simp [mapDelete]
  | cons q rest ih =>
    obtain ⟨k', w⟩ := q
    simp only [List.map_cons, List.nodup_cons] at h
    intro p hp
    by_cases hk : k' = k
    · subst hk
      simp only [mapDelete, beq_self_eq_true, if_true] at hp
      intro hpk
      exact h.1 (hpk ▸ List.mem_map_of_mem Prod.fst hp)
    · simp only [mapDelete, beq_iff_eq, hk, if_false] at hp
      rcases List.mem_cons.mp hp with h1 | h1
      · rw [h1]; exact hk
      · exact ih h.2 p h1

lemma mapDelete_of_key_not_mem {α : Type} (m : List (Nat × α)) (k : Nat)
    (h : ∀ p ∈ m, p.1 ≠ k) : mapDelete m k = (false, m) := by
  induction m with
  | nil => rfl
  | cons q rest ih =>
    obtain ⟨k', w⟩ := q
    have hk : k' ≠ k := h (k', w) (List.mem_cons_self _ _)
    simp only [mapDelete, beq_iff_eq, hk, if_false]
    rw [ih fun p hp => h p (List.mem_cons_of_mem _ hp)]

lemma mapDelete_mapSet_self {α : Type} (m : List (Nat × α)) (k : Nat) (v : α) :
    mapDelete (mapSet m k v) k = (true, (mapDelete m k).2) := by
  induction m with
  | nil => simp [mapSet, mapDelete]
  | cons q rest ih =>
    obtain ⟨k', w⟩ := q
    by_cases h : k' = k
    · subst h; simp [mapSet, mapDelete]
    · simp [mapSet, mapDelete, h, ih]

end Hasoon

namespace Hasoon

/-- Well-formedness of the customer collection, an invariant of every
reachable store state: the map keys are unique (JS `Map` semantics) and
every record is stored under its own id. -/
def customersWF (s : MemStorage) : Prop :=
  (s.customers.map Prod.fst).Nodup ∧ ∀ p ∈ s.customers, p.2.id = p.1

/-- C9: from any well-formed store state, creating a customer and then
deleting it by its id succeeds (`true`) and removes it from subsequent
`listAll` results; a second delete with the same id returns `false`,
leaves the store unchanged, and is surfaced by the HTTP route as 404
(not-found), not as a fatal error. -/
theorem create_delete_roundtrip (s : MemStorage) (ins : InsertCustomer) (t : Nat)
    (hwf : customersWF s) :
    ∀ c s1, createCustomer s ins t = (c, s1) →
    ∀ b1 s2, deleteCustomer s1 c.id = (b1, s2) →
    ∀ b2 s3, deleteCustomer s2 c.id = (b2, s3) →
    b1 = true ∧ c ∉ getAllCustomers s2 ∧ b2 = false ∧ s3 = s2 ∧
    (deleteCustomerRoute s2 c.id).1 = 404 := by
  intro c s1 hc b1 s2 hd1 b2 s3 hd2
  simp only [createCustomer] at hc
  obtain ⟨hc1, hc2⟩ := Prod.mk.injEq .. ▸ hc
  simp only [deleteCustomer] at hd1
  obtain ⟨hb1, hs2⟩ := Prod.mk.injEq .. ▸ hd1
  have hid : c.id = s.currentCustomerId := by rw [← hc1]
  have hdel : mapDelete s1.customers c.id = (true, (mapDelete s.customers c.id).2) := by
    rw [← hc2, hid]
    exact mapDelete_mapSet_self s.customers s.currentCustomerId _
  have hs2c : s2.customers = (mapDelete s.customers c.id).2 := by
    rw [← hs2, hdel]
  have hb1t : b1 = true := by rw [← hb1, hdel]
  have hkeys : ∀ p ∈ s2.customers, p.1 ≠ c.id := by
    rw [hs2c]
    exact key_ne_of_mem_mapDelete s.customers c.id hwf.1
  have hnot : c ∉ getAllCustomers s2 := by
    intro hmem
    rw [getAllCustomers, List.mem_insertionSort] at hmem
    obtain ⟨p, hp, hpc⟩ := List.mem_map.mp hmem
    have hpm : p ∈ s.customers := by
      refine mem_of_mem_mapDelete s.customers c.id p ?_
      rw [← hs2c]; exact hp
    have := hwf.2 p hpm
    exact hkeys p hp (by rw [← this, hpc])
  have hdel2 : mapDelete s2.customers c.id = (false, s2.customers) :=
    mapDelete_of_key_not_mem s2.customers c.id hkeys
  simp only [deleteCustomer, hdel2] at hd2
  obtain ⟨hb2, hs3⟩ := Prod.mk.injEq .. ▸ hd2
  refine ⟨hb1t, hnot, hb2.symm, ?_, ?_⟩
  · cases hs3
    cases s2
    rfl
  · simp [deleteCustomerRoute, deleteCustomer, hdel2]

/-- Satisfiability of the hypotheses of `create_delete_roundtrip`, checked
at the empty store. -/
theorem create_delete_roundtrip_witness :
    customersWF emptyStorage ∧
    ((deleteCustomer
        (createCustomer emptyStorage
          { name := "A", goodsType := "X", carCount := 2, amount := 100,
            paymentStatus := "paid" } 5).2
        (createCustomer emptyStorage
          { name := "A", goodsType := "X", carCount := 2, amount := 100,
            paymentStatus := "paid" } 5).1.id).1 = true ∧
      (createCustomer emptyStorage
          { name := "A", goodsType := "X", carCount := 2, amount := 100,
            paymentStatus := "paid" } 5).1 ∉
        getAllCustomers
          (deleteCustomer
            (createCustomer emptyStorage
              { name := "A", goodsType := "X", carCount := 2, amount := 100,
                paymentStatus := "paid" } 5).2
            (createCustomer emptyStorage
              { name := "A", goodsType := "X", carCount := 2, amount := 100,
                paymentStatus := "paid" } 5).1.id).2 ∧
      (deleteCustomer
          (deleteCustomer
            (createCustomer emptyStorage
              { name := "A", goodsType := "X", carCount := 2, amount := 100,
                paymentStatus := "paid" } 5).2
            (createCustomer emptyStorage
              { name := "A", goodsType := "X", carCount := 2, amount := 100,
                paymentStatus := "paid" } 5).1.id).2
          (createCustomer emptyStorage
            { name := "A", goodsType := "X", carCount := 2, amount := 100,
              paymentStatus := "paid" } 5).1.id).1 = false) := by
  constructor
  · exact ⟨List.nodup_nil, by intro p hp; cases hp⟩
  · have h := create_delete_roundtrip emptyStorage
      { name := "A", goodsType := "X", carCount := 2, amount := 100,
        paymentStatus := "paid" } 5
      ⟨List.nodup_nil, by intro p hp; cases hp⟩
      _ _ rfl _ _ rfl _ _ rfl
    exact ⟨h.1, h.2.1, h.2.2.1⟩

end Hasoon

namespace Hasoon

/-- The plain sum of the (exact) amounts of a customer list. -/
def amountSum (L : List Customer) : ℚ :=
  (L.map Customer.amount).sum

lemma foldl_amount_eq (C : List Customer) :
    ∀ s : ℚ, C.foldl (fun sum c => sum + c.amount) s = s + amountSum C := by
  induction C with
  | nil => intro s; simp [amountSum]
  | cons c rest ih =>
    intro s
    simp only [List.foldl_cons, ih, amountSum, List.map_cons, List.sum_cons]
    ring

lemma totalRevenue_eq_amountSum (C : List Customer) : totalRevenue C = amountSum C := by
  simpa [totalRevenue] using foldl_amount_eq C 0

/-- The sum of the `totalAmount` fields over a list of name-groups. -/
def groupsTotal (gs : List (String × NameGroup)) : ℚ :=
  (gs.map fun p => p.2.totalAmount).sum

lemma groupsTotal_pushName (acc : List (String × NameGroup)) (c : Customer) :
    groupsTotal (pushName acc c) = groupsTotal acc + c.amount := by
  induction acc with
  | nil =>
    simp only [pushName, groupsTotal, List.map_cons, List.map_nil, List.sum_cons,
      List.sum_nil, addToGroup, initGroup]
    ring
  | cons p rest ih =>
    obtain ⟨n, g⟩ := p
    by_cases h : n = c.name
    · simp only [pushName, h, beq_self_eq_true, if_true, groupsTotal, List.map_cons,
        List.sum_cons, addToGroup]
      ring
    · simp only [pushName, beq_iff_eq, h, if_false, groupsTotal, List.map_cons,
        List.sum_cons] at ih ⊢
      rw [ih]
      ring

lemma groupedByName_foldl_total (L : List Customer) :
    ∀ acc, groupsTotal (L.foldl pushName acc) = groupsTotal acc + amountSum L := by
  induction L with
  | nil => intro acc; simp [amountSum]
  | cons c rest ih =>
    intro acc
    simp only [List.foldl_cons, ih, groupsTotal_pushName, amountSum, List.map_cons,
      List.sum_cons]
    ring

lemma groupedByName_total (L : List Customer) :
    groupsTotal (groupedByName L) = amountSum L := by
  simpa [groupedByName, groupsTotal] using groupedByName_foldl_total L []

/-- The double sum of the claim: over all date partitions, the sum over the
name-groups of the partition of their `totalAmount`. -/
def bucketsTotal (bs : List (Nat × List Customer)) : ℚ :=
  (bs.map fun p => groupsTotal (groupedByName p.2)).sum

lemma groupedByName_concat (L : List Customer) (c : Customer) :
    groupedByName (L ++ [c]) = pushName (groupedByName L) c := by
  simp [groupedByName, List.foldl_append]

lemma bucketsTotal_pushDate (acc : List (Nat × List Customer)) (c : Customer) :
    bucketsTotal (pushDate acc c) = bucketsTotal acc + c.amount := by
  induction acc with
  | nil =>
    simp [pushDate, bucketsTotal, groupedByName_total, amountSum]
  | cons p rest ih =>
    obtain ⟨k, b⟩ := p
    by_cases h : k = dateKey c.createdAt
    · simp only [pushDate, h, beq_self_eq_true, if_true, bucketsTotal, List.map_cons,
        List.sum_cons, groupedByName_concat, groupsTotal_pushName]
      ring
    · simp only [pushDate, beq_iff_eq, h, if_false, bucketsTotal, List.map_cons,
        List.sum_cons] at ih ⊢
      rw [ih]
      ring

lemma bucketsTotal_foldl (C : List Customer) :
    ∀ acc, bucketsTotal (C.foldl pushDate acc) = bucketsTotal acc + amountSum C := by
  induction C with
  | nil => intro acc; simp [amountSum]
  | cons c rest ih =>
    intro acc
    simp only [List.foldl_cons, ih, bucketsTotal_pushDate, amountSum, List.map_cons,
      List.sum_cons]
    ring

/-- C2: the two-level grouping is a lossless partition: summing
`totalAmount` over all name-groups of all date partitions of C gives
exactly `totalRevenue C`. -/
theorem grouping_lossless (C : List Customer) :
    bucketsTotal (customersByDate C) = totalRevenue C := by
  rw [customersByDate, totalRevenue_eq_amountSum]
  simpa [bucketsTotal] using bucketsTotal_foldl C []

end Hasoon

namespace Hasoon

/-- Flip a transaction to unpaid (the single-entry change of the claim). -/
def setUnpaid (c : Customer) : Customer :=
  { c with paymentStatus := "unpaid" }

lemma addToGroup_allPaid_iff (g : NameGroup) (c : Customer)
    (h : g.allPaid = true ↔ ∀ x ∈ g.entries, x.paymentStatus ≠ "unpaid") :
    (addToGroup g c).allPaid = true ↔
      ∀ x ∈ (addToGroup g c).entries, x.paymentStatus ≠ "unpaid" := by
  by_cases hc : c.paymentStatus = "unpaid"
  · constructor
    · intro hfalse
      exfalso
      simp [addToGroup, hc] at hfalse
    · intro hall
      exact absurd hc (hall c (by simp [addToGroup]))
  · have he : (addToGroup g c).allPaid = g.allPaid := by
      simp [addToGroup, hc]
    rw [he]
    constructor
    · intro hg x hx
      rcases (by simpa [addToGroup] using hx : x ∈ g.entries ∨ x = c) with h1 | rfl
      · exact (h.mp hg) x h1
      · exact hc
    · intro hall
      exact h.mpr fun x hx => hall x (by simp [addToGroup, hx])

lemma initGroup_allPaid_iff (c : Customer) :
    (initGroup c).allPaid = true ↔
      ∀ x ∈ (initGroup c).entries, x.paymentStatus ≠ "unpaid" := by
  simp [initGroup]

lemma pushName_allPaid_inv (acc : List (String × NameGroup)) (c : Customer)
    (h : ∀ p ∈ acc, p.2.allPaid = true ↔ ∀ x ∈ p.2.entries, x.paymentStatus ≠ "unpaid") :
    ∀ p ∈ pushName acc c,
      p.2.allPaid = true ↔ ∀ x ∈ p.2.entries, x.paymentStatus ≠ "unpaid" := by
  induction acc with
  | nil =>
    intro p hp
    rw [List.mem_singleton.mp hp]
    exact addToGroup_allPaid_iff _ c (initGroup_allPaid_iff c)
  | cons q rest ih =>
    obtain ⟨n, g⟩ := q
    by_cases hn : n = c.name
    · simp only [pushName, hn, beq_self_eq_true, if_true]
      intro p hp
      rcases List.mem_cons.mp hp with h1 | h1
      · rw [h1]
        exact addToGroup_allPaid_iff g c (h (n, g) (List.mem_cons_self _ _))
      · exact h p (List.mem_cons_of_mem _ h1)
    · simp only [pushName, beq_iff_eq, hn, if_false]
      intro p hp
      rcases List.mem_cons.mp hp with h1 | h1
      · exact h1 ▸ h (n, g) (List.mem_cons_self _ _)
      · exact ih (fun q hq => h q (List.mem_cons_of_mem _ hq)) p h1

lemma groupedByName_allPaid_inv (L : List Customer) :
    ∀ acc, (∀ p ∈ acc, p.2.allPaid = true ↔ ∀ x ∈ p.2.entries, x.paymentStatus ≠ "unpaid") →
    ∀ p ∈ L.foldl pushName acc,
      p.2.allPaid = true ↔ ∀ x ∈ p.2.entries, x.paymentStatus ≠ "unpaid" := by
  induction L with
  | nil => intro acc h; exact h
  | cons c rest ih =>
    intro acc h
    exact ih (pushName acc c) (pushName_allPaid_inv acc c h)

lemma findGroup_pushName_self (acc : List (String × NameGroup)) (c : Customer) :
    ∃ g, findGroup (pushName acc c) c.name = some g ∧ c ∈ g.entries := by
  induction acc with
  | nil =>
    refine ⟨addToGroup (initGroup c) c, ?_, by simp [addToGroup]⟩
    simp [pushName, findGroup]
  | cons q rest ih =>
    obtain ⟨n, g⟩ := q
    by_cases hn : n = c.name
    · refine ⟨addToGroup g c, ?_, by simp [addToGroup]⟩
      simp [pushName, findGroup, hn]
    · obtain ⟨g', hg', hc'⟩ := ih
      refine ⟨g', ?_, hc'⟩
      simp [pushName, findGroup, hn, hg']

lemma findGroup_pushName_stable (acc : List (String × NameGroup)) (c : Customer)
    (n : String) (g : NameGroup) (e : Customer)
    (h : findGroup acc n = some g) (he : e ∈ g.entries) :
    ∃ g', findGroup (pushName acc c) n = some g' ∧ e ∈ g'.entries := by
  induction acc with
  | nil => simp [findGroup] at h
  | cons q rest ih =>
    obtain ⟨n', g0⟩ := q
    by_cases h2 : n' = n
    · subst h2
      have hg0 : g0 = g := by
        simpa [findGroup] using h
      subst hg0
      by_cases h1 : n' = c.name
      · refine ⟨addToGroup g0 c, ?_, ?_⟩
        · simp [pushName, findGroup, ← h1]
        · simp [addToGroup, he]
      · refine ⟨g0, ?_, he⟩
        simp [pushName, findGroup, h1]
    · have hrest : findGroup rest n = some g := by
        simpa [findGroup, h2] using h
      by_cases h1 : n' = c.name
      · have hcn : ¬ c.name = n := by rw [← h1]; exact h2
        refine ⟨g, ?_, he⟩
        simp [pushName, findGroup, ← h1, hcn, h2, hrest]
      · obtain ⟨g', hg', he'⟩ := ih hrest
        refine ⟨g', ?_, he'⟩
        simp [pushName, findGroup, h1, h2, hg']

lemma findGroup_foldl_mem (L : List Customer) :
    ∀ (acc : List (String × NameGroup)) (c : Customer),
      (c ∈ L ∨ ∃ g, findGroup acc c.name = some g ∧ c ∈ g.entries) →
      ∃ g, findGroup (L.foldl pushName acc) c.name = some g ∧ c ∈ g.entries := by
  induction L with
  | nil =>
    rintro acc c (h | h)
    · cases h
    · exact h
  | cons a rest ih =>
    rintro acc c (h | ⟨g, hg, he⟩)
    · rcases List.mem_cons.mp h with rfl | h2
      · exact ih _ c (Or.inr (findGroup_pushName_self acc c))
      · exact ih _ c (Or.inl h2)
    · exact ih _ c (Or.inr (findGroup_pushName_stable acc a c.name g c hg he))

lemma mem_of_findGroup (acc : List (String × NameGroup)) (n : String) (g : NameGroup)
    (h : findGroup acc n = some g) : (n, g) ∈ acc := by
  induction acc with
  | nil => simp [findGroup] at h
  | cons q rest ih =>
    obtain ⟨n', g0⟩ := q
    by_cases h2 : n' = n
    · have : g0 = g := by simpa [findGroup, h2] using h
      subst h2
      exact this ▸ List.mem_cons_self _ _
    · exact List.mem_cons_of_mem _ (ih (by simpa [findGroup, h2] using h))

/-- C4: in every (date, name) group produced by the two-level grouping,
`allPaid` is `true` iff every entry of the group is paid (given that every
entry's status is one of the two legal values); and recomputing the
grouping after flipping any single entry of a list to unpaid yields
`allPaid = false` for the group of that entry's name. -/
theorem allPaid_characterisation :
    (∀ (C : List Customer) (k : Nat) (b : List Customer) (n : String) (g : NameGroup),
      (k, b) ∈ customersByDate C →
      (n, g) ∈ groupedByName b →
      (∀ c ∈ g.entries, c.paymentStatus = "paid" ∨ c.paymentStatus = "unpaid") →
      (g.allPaid = true ↔ ∀ c ∈ g.entries, c.paymentStatus = "paid")) ∧
    (∀ (L : List Customer) (i : Nat) (hi : i < L.length),
      ∃ g, findGroup (groupedByName (L.set i (setUnpaid (L.get ⟨i, hi⟩))))
          (L.get ⟨i, hi⟩).name = some g ∧ g.allPaid = false) := by
  constructor
  · intro C k b n g _ hg hval
    have base := groupedByName_allPaid_inv b [] (by intro p hp; cases hp) (n, g) hg
    constructor
    · intro ht c hc
      rcases hval c hc with h1 | h1
      · exact h1
      · exact absurd h1 (base.mp ht c hc)
    · intro hall
      refine base.mpr fun c hc => ?_
      rw [hall c hc]
      decide
  · intro L i hi
    have hi' : i < (L.set i (setUnpaid (L.get ⟨i, hi⟩))).length := by
      simpa using hi
    have hmem : setUnpaid (L.get ⟨i, hi⟩) ∈ L.set i (setUnpaid (L.get ⟨i, hi⟩)) := by
      have hg := List.getElem_mem hi'
      rw [List.getElem_set_self hi'] at hg
      exact hg
    have hname : (setUnpaid (L.get ⟨i, hi⟩)).name = (L.get ⟨i, hi⟩).name := rfl
    obtain ⟨g, hg, he⟩ :=
      findGroup_foldl_mem (L.set i (setUnpaid (L.get ⟨i, hi⟩))) []
        (setUnpaid (L.get ⟨i, hi⟩)) (Or.inl hmem)
    refine ⟨g, by rw [← hname]; exact hg, ?_⟩
    have base := groupedByName_allPaid_inv (L.set i (setUnpaid (L.get ⟨i, hi⟩))) []
      (by intro p hp; cases hp) ((L.get ⟨i, hi⟩).name, g)
      (mem_of_findGroup _ _ _ (by rw [← hname]; exact hg))
    have : ¬ g.allPaid = true := by
      intro ht
      exact absurd rfl (base.mp ht _ he)
    exact Bool.not_eq_true _ ▸ this

end Hasoon

namespace Hasoon

/-- A second transaction with the same customer name as `sampleA` but
created on the following calendar day. -/
def sampleB : Customer :=
  { id := 2, name := "A", goodsType := "X", carCount := 1, amount := 50,
    paymentStatus := "unpaid", createdAt := 5 + msPerDay }

/-- Satisfiability of the hypotheses of `allPaid_characterisation`, checked
on a concrete one-entry group. -/
theorem allPaid_characterisation_witness :
    ((0, [sampleA]) ∈ customersByDate [sampleA] ∧
      ("A", addToGroup (initGroup sampleA) sampleA) ∈ groupedByName [sampleA] ∧
      (∀ c ∈ (addToGroup (initGroup sampleA) sampleA).entries,
        c.paymentStatus = "paid" ∨ c.paymentStatus = "unpaid") ∧
      ((addToGroup (initGroup sampleA) sampleA).allPaid = true ↔
        ∀ c ∈ (addToGroup (initGroup sampleA) sampleA).entries,
          c.paymentStatus = "paid")) ∧
    ((0 : Nat) < [sampleA].length ∧
      ∃ g, findGroup (groupedByName ([sampleA].set 0 (setUnpaid ([sampleA].get ⟨0, Nat.one_pos⟩))))
          ([sampleA].get ⟨0, Nat.one_pos⟩).name = some g ∧ g.allPaid = false) := by
  have h1 : (0, [sampleA]) ∈ customersByDate [sampleA] := List.Mem.head _
  have h2 : ("A", addToGroup (initGroup sampleA) sampleA) ∈ groupedByName [sampleA] :=
    List.Mem.head _
  have h3 : ∀ c ∈ (addToGroup (initGroup sampleA) sampleA).entries,
      c.paymentStatus = "paid" ∨ c.paymentStatus = "unpaid" := by
    intro c hc
    have hc' : c ∈ [sampleA] := hc
    rw [List.mem_singleton.mp hc']
    exact Or.inl rfl
  exact ⟨⟨h1, h2, h3, allPaid_characterisation.1 [sampleA] 0 [sampleA] "A" _ h1 h2 h3⟩,
    Nat.one_pos, allPaid_characterisation.2 [sampleA] 0 Nat.one_pos⟩

/-- C5 counterexample: two transactions with the same name created on
different calendar days land in the SAME group of the PDF report — the
`groupedCustomers` reduce keys by name only, so the report grouping is not
two-level.  Checked on `sampleA` (day 0) and `sampleB` (day 1). -/
theorem pdf_grouping_not_by_date :
    sampleA.name = sampleB.name ∧
    dateKey sampleA.createdAt ≠ dateKey sampleB.createdAt ∧
    (pdfGroups [sampleA, sampleB]).length = 1 ∧
    findPdfGroup (pdfGroups [sampleA, sampleB]) sampleA.name =
      some (addToPdfGroup (addToPdfGroup (initPdfGroup sampleA) sampleA) sampleB) ∧
    sampleA ∈ (addToPdfGroup (addToPdfGroup (initPdfGroup sampleA) sampleA) sampleB).entries ∧
    sampleB ∈ (addToPdfGroup (addToPdfGroup (initPdfGroup sampleA) sampleA) sampleB).entries := by
  refine ⟨rfl, by decide, rfl, rfl, ?_, ?_⟩
  · have h : sampleA ∈ [sampleA, sampleB] := List.mem_cons_self _ _
    exact h
  · have h : sampleB ∈ [sampleA, sampleB] :=
      List.mem_cons_of_mem _ (List.mem_singleton.mpr rfl)
    exact h

/-- The entries of the name-group of key `n` in a PDF grouping accumulator
(empty when the key is absent). -/
def pdfEntriesAt (acc : List (String × PdfGroup)) (n : String) : List Customer :=
  match findPdfGroup acc n with
  | some g => g.entries
  | none => []

lemma pdfEntriesAt_pushPdf (acc : List (String × PdfGroup)) (c : Customer) (n : String) :
    pdfEntriesAt (pushPdf acc c) n =
      pdfEntriesAt acc n ++ (if c.name == n then [c] else []) := by
  induction acc with
  | nil =>
    by_cases h : c.name = n
    · simp [pushPdf, pdfEntriesAt, findPdfGroup, addToPdfGroup, initPdfGroup, h]
    · simp [pushPdf, pdfEntriesAt, findPdfGroup, h]
  | cons q rest ih =>
    obtain ⟨n', g⟩ := q
    by_cases h1 : n' = c.name
    · by_cases h2 : n' = n
      · have hc : c.name = n := by rw [← h1, h2]
        simp [pushPdf, pdfEntriesAt, findPdfGroup, h1, h2, hc, addToPdfGroup]
      · have hcn : ¬ c.name = n := by rw [← h1]; exact h2
        simp [pushPdf, pdfEntriesAt, findPdfGroup, h1, hcn]
    · by_cases h2 : n' = n
      · have hnc : ¬ c.name = n := by
          rw [← h2]; exact fun h => h1 h.symm
        have hnc' : ¬ n = c.name := fun h => hnc h.symm
        simp [pushPdf, pdfEntriesAt, findPdfGroup, h1, h2, hnc, hnc']
      · simp only [pushPdf, beq_iff_eq, h1, if_false]
        simp only [pdfEntriesAt, findPdfGroup, beq_iff_eq, h2, if_false] at ih ⊢
        exact ih

lemma pdfEntriesAt_foldl (C : List Customer) :
    ∀ (acc : List (String × PdfGroup)) (n : String),
      pdfEntriesAt (C.foldl pushPdf acc) n =
        pdfEntriesAt acc n ++ C.filter (fun c => c.name == n) := by
  induction C with
  | nil => intro acc n; simp
  | cons c rest ih =>
    intro acc n
    simp only [List.foldl_cons, ih, pdfEntriesAt_pushPdf, List.filter_cons]
    by_cases h : c.name = n
    · simp [h, List.append_assoc]
    · simp [h]

/-- C5 amended: the grouping used for the PDF report is single-level, by
exact customer name over the whole report scope: the group stored under
name `n` holds exactly the transactions of the input list whose name is
`n`, in input order, regardless of their creation day. -/
theorem pdfGroups_entries_eq_filter (C : List Customer) (n : String) (g : PdfGroup)
    (h : findPdfGroup (pdfGroups C) n = some g) :
    g.entries = C.filter (fun c => c.name == n) := by
  have hs := pdfEntriesAt_foldl C [] n
  simp only [pdfEntriesAt, findPdfGroup, pdfGroups] at hs h
  rw [h] at hs
  simpa using hs

/-- Satisfiability of the hypothesis of `pdfGroups_entries_eq_filter`,
checked on the two-day same-name input. -/
theorem pdfGroups_entries_eq_filter_witness :
    findPdfGroup (pdfGroups [sampleA, sampleB]) "A" =
      some (addToPdfGroup (addToPdfGroup (initPdfGroup sampleA) sampleA) sampleB) ∧
    (addToPdfGroup (addToPdfGroup (initPdfGroup sampleA) sampleA) sampleB).entries =
      [sampleA, sampleB].filter (fun c => c.name == "A") :=
  ⟨rfl, pdfGroups_entries_eq_filter [sampleA, sampleB] "A" _ rfl⟩

end Hasoon

namespace Hasoon

/-- Well-formedness of a date-bucket accumulator: every bucket holds
exactly the customers of its date key, is nonempty, and its first element
has the maximal timestamp of the bucket. -/
def BucketsWF (bs : List (Nat × List Customer)) : Prop :=
  ∀ p ∈ bs, (∀ x ∈ p.2, dateKey x.createdAt = p.1) ∧
    ∃ h t, p.2 = h :: t ∧ ∀ x ∈ p.2, x.createdAt ≤ h.createdAt

lemma mem_pushDate (acc : List (Nat × List Customer)) (c : Customer) :
    ∀ p ∈ pushDate acc c, ∀ x ∈ p.2, (∃ q ∈ acc, x ∈ q.2) ∨ x = c := by
  induction acc with
  | nil =>
    intro p hp x hx
    rw [List.mem_singleton.mp hp] at hx
    exact Or.inr (List.mem_singleton.mp hx)
  | cons q rest ih =>
    obtain ⟨k, b⟩ := q
    by_cases hk : k = dateKey c.createdAt
    · subst hk
      simp only [pushDate, beq_self_eq_true, if_true]
      intro p hp x hx
      rcases List.mem_cons.mp hp with h1 | h1
      · rw [h1] at hx
        rcases List.mem_append.mp hx with h2 | h2
        · exact Or.inl ⟨(dateKey c.createdAt, b), List.mem_cons_self _ _, h2⟩
        · exact Or.inr (List.mem_singleton.mp h2)
      · exact Or.inl ⟨p, List.mem_cons_of_mem _ h1, hx⟩
    · simp only [pushDate, beq_iff_eq, hk, if_false]
      intro p hp x hx
      rcases List.mem_cons.mp hp with h1 | h1
      · exact Or.inl ⟨p, h1 ▸ List.mem_cons_self _ _, hx⟩
      · rcases ih p h1 x hx with ⟨q', hq', hx'⟩ | h2
        · exact Or.inl ⟨q', List.mem_cons_of_mem _ hq', hx'⟩
        · exact Or.inr h2

lemma pushDate_bucketsWF (acc : List (Nat × List Customer)) (c : Customer)
    (hwf : BucketsWF acc)
    (hle : ∀ p ∈ acc, ∀ x ∈ p.2, c.createdAt ≤ x.createdAt) :
    BucketsWF (pushDate acc c) := by
  induction acc with
  | nil =>
    intro p hp
    rw [List.mem_singleton.mp hp]
    refine ⟨?_, c, [], rfl, ?_⟩
    · intro x hx; rw [List.mem_singleton.mp hx]
    · intro x hx; rw [List.mem_singleton.mp hx]
  | cons q rest ih =>
    obtain ⟨k, b⟩ := q
    by_cases hk : k = dateKey c.createdAt
    · subst hk
      simp only [pushDate, beq_self_eq_true, if_true]
      intro p hp
      rcases List.mem_cons.mp hp with h1 | h1
      · obtain ⟨hkey, h, t, hht, hmax⟩ := hwf (dateKey c.createdAt, b) (List.mem_cons_self _ _)
        have hb : b = h :: t := hht
        subst h1
        constructor
        · intro x hx
          rcases List.mem_append.mp hx with h2 | h2
          · exact hkey x h2
          · rw [List.mem_singleton.mp h2]
        · refine ⟨h, t ++ [c], ?_, ?_⟩
          · show b ++ [c] = h :: (t ++ [c])
            rw [hb]
            simp
          · intro x hx
            rcases List.mem_append.mp hx with h2 | h2
            · exact hmax x h2
            · rw [List.mem_singleton.mp h2]
              refine hle (dateKey c.createdAt, b) (List.mem_cons_self _ _) h ?_
              show h ∈ b
              rw [hb]
              exact List.mem_cons_self h t
      · exact hwf p (List.mem_cons_of_mem _ h1)
    · simp only [pushDate, beq_iff_eq, hk, if_false]
      intro p hp
      rcases List.mem_cons.mp hp with h1 | h1
      · exact h1 ▸ hwf (k, b) (List.mem_cons_self _ _)
      · exact ih (fun q hq => hwf q (List.mem_cons_of_mem _ hq))
          (fun q hq => hle q (List.mem_cons_of_mem _ hq)) p h1

lemma foldl_pushDate_bucketsWF (C : List Customer) :
    ∀ acc, List.Pairwise (fun a b => b.createdAt ≤ a.createdAt) C →
    BucketsWF acc →
    (∀ p ∈ acc, ∀ x ∈ p.2, ∀ d ∈ C, d.createdAt ≤ x.createdAt) →
    BucketsWF (C.foldl pushDate acc) := by
  induction C with
  | nil => intro acc _ hwf _; exact hwf
  | cons c rest ih =>
    intro acc hs hwf hle
    have hsc := List.pairwise_cons.mp hs
    refine ih (pushDate acc c) hsc.2
      (pushDate_bucketsWF acc c hwf
        (fun p hp x hx => hle p hp x hx c (List.mem_cons_self _ _))) ?_
    intro p hp x hx d hd
    rcases mem_pushDate acc c p hp x hx with ⟨q, hq, hx'⟩ | rfl
    · exact hle q hq x hx' d (List.mem_cons_of_mem _ hd)
    · exact hsc.1 d hd

lemma keys_pushDate (acc : List (Nat × List Customer)) (c : Customer) :
    ((pushDate acc c).map Prod.fst = acc.map Prod.fst ∧
      dateKey c.createdAt ∈ acc.map Prod.fst) ∨
    ((pushDate acc c).map Prod.fst = acc.map Prod.fst ++ [dateKey c.createdAt] ∧
      dateKey c.createdAt ∉ acc.map Prod.fst) := by
  induction acc with
  | nil =>
    right
    exact ⟨rfl, by simp⟩
  | cons q rest ih =>
    obtain ⟨k, b⟩ := q
    by_cases hk : k = dateKey c.createdAt
    · subst hk
      left
      constructor
      · simp [pushDate]
      · simp
    · rcases ih with ⟨h1, h2⟩ | ⟨h1, h2⟩
      · left
        constructor
        · simp [pushDate, hk, h1]
        · simp [h2]
      · right
        constructor
        · simp [pushDate, hk, h1]
        · simp only [List.map_cons, List.mem_cons]
          rintro (h | h)
          · exact hk h.symm
          · exact h2 h

lemma pushDate_keys_nodup (acc : List (Nat × List Customer)) (c : Customer)
    (h : (acc.map Prod.fst).Nodup) : ((pushDate acc c).map Prod.fst).Nodup := by
  rcases keys_pushDate acc c with ⟨h1, _⟩ | ⟨h1, h2⟩
  · rw [h1]; exact h
  · rw [h1]
    rw [List.nodup_append]
    refine ⟨h, List.nodup_singleton _, ?_⟩
    intro a ha hb
    rw [List.mem_singleton.mp hb] at ha
    exact h2 ha

lemma foldl_pushDate_keys_nodup (C : List Customer) :
    ∀ acc, ((acc : List (Nat × List Customer)).map Prod.fst).Nodup →
    ((C.foldl pushDate acc).map Prod.fst).Nodup := by
  induction C with
  | nil => intro acc h; exact h
  | cons c rest ih =>
    intro acc h
    exact ih (pushDate acc c) (pushDate_keys_nodup acc c h)

lemma firstTime_eq (bs : List (Nat × List Customer))
    (hnd : (bs.map Prod.fst).Nodup) (k : Nat) (h : Customer) (t : List Customer)
    (hmem : (k, h :: t) ∈ bs) : firstTime bs k = h.createdAt := by
  induction bs with
  | nil => cases hmem
  | cons q rest ih =>
    obtain ⟨k', b'⟩ := q
    rcases List.mem_cons.mp hmem with heq | hmem'
    · have hk : k = k' := congrArg Prod.fst heq
      have hb : (h :: t : List Customer) = b' := congrArg Prod.snd heq
      subst hk
      rw [← hb]
      simp [firstTime]
    · have hkmem : k ∈ rest.map Prod.fst := by
        have hm := List.mem_map_of_mem Prod.fst hmem'
        simpa using hm
      have hk : ¬ k' = k := by
        intro he
        exact (List.nodup_cons.mp hnd).1 (by rw [he]; exact hkmem)
      simp only [firstTime, beq_iff_eq, hk, if_false]
      exact ih (List.nodup_cons.mp hnd).2 hmem'

lemma lt_of_dateKey_lt {t1 t2 : Nat} (h : dateKey t1 < dateKey t2) : t1 < t2 := by
  by_contra hle
  push_neg at hle
  have hd : dateKey t2 ≤ dateKey t1 := Nat.div_le_div_right hle
  omega

end Hasoon

namespace Hasoon

/-- C8: for a customer list as delivered by the store (sorted by
`createdAt` descending, the `listAll` guarantee), the interactive
daily-operations view keeps the date partitions in strictly descending
date order and retains exactly the `min 3 n` most recent of the `n` date
partitions: every retained key is a partition key, every omitted partition
key is older than every retained one. -/
theorem recentDates_spec (C : List Customer)
    (hs : List.Pairwise (fun a b => b.createdAt ≤ a.createdAt) C) :
    (∀ k ∈ recentDates C, k ∈ (customersByDate C).map Prod.fst) ∧
    (recentDates C).length = min 3 (customersByDate C).length ∧
    List.Pairwise (fun a b => b < a) (recentDates C) ∧
    (∀ k ∈ (customersByDate C).map Prod.fst, k ∉ recentDates C →
      ∀ k' ∈ recentDates C, k < k') := by
  classical
  have hwf : BucketsWF (customersByDate C) :=
    foldl_pushDate_bucketsWF C [] hs (by intro p hp; cases hp)
      (by intro p hp; cases hp)
  have hnd : ((customersByDate C).map Prod.fst).Nodup :=
    foldl_pushDate_keys_nodup C [] (by simp)
  have hrec : recentDates C =
      (((customersByDate C).map Prod.fst).insertionSort
        (fun a b => firstTime (customersByDate C) b ≤
          firstTime (customersByDate C) a)).take 3 := rfl
  have hft : ∀ k ∈ (customersByDate C).map Prod.fst,
      dateKey (firstTime (customersByDate C) k) = k := by
    intro k hk
    obtain ⟨p, hp, hpk⟩ := List.mem_map.mp hk
    obtain ⟨hkeyinv, h, t, hht, _⟩ := hwf p hp
    have hpkt : (k, h :: t) = p := by
      rw [← hpk, ← hht]
    have hfe : firstTime (customersByDate C) k = h.createdAt :=
      firstTime_eq (customersByDate C) hnd k h t (hpkt ▸ hp)
    rw [hfe, ← hpk]
    exact hkeyinv h (hht ▸ List.mem_cons_self h t)
  have hmono : ∀ k1 ∈ (customersByDate C).map Prod.fst,
      ∀ k2 ∈ (customersByDate C).map Prod.fst,
      k1 < k2 → firstTime (customersByDate C) k1 < firstTime (customersByDate C) k2 := by
    intro k1 h1 k2 h2 hlt
    have hd1 := hft k1 h1
    have hd2 := hft k2 h2
    exact lt_of_dateKey_lt (by rw [hd1, hd2]; exact hlt)
  letI instTot : IsTotal Nat
      (fun a b => firstTime (customersByDate C) b ≤ firstTime (customersByDate C) a) :=
    ⟨fun a b => Nat.le_total _ _⟩
  letI instTrans : IsTrans Nat
      (fun a b => firstTime (customersByDate C) b ≤ firstTime (customersByDate C) a) :=
    ⟨fun _ _ _ hab hbc => le_trans hbc hab⟩
  have hsorted : List.Pairwise
      (fun a b => firstTime (customersByDate C) b ≤ firstTime (customersByDate C) a)
      (((customersByDate C).map Prod.fst).insertionSort
        (fun a b => firstTime (customersByDate C) b ≤ firstTime (customersByDate C) a)) :=
    List.sorted_insertionSort _ _
  have hperm := List.perm_insertionSort
    (fun a b => firstTime (customersByDate C) b ≤ firstTime (customersByDate C) a)
    ((customersByDate C).map Prod.fst)
  have hndS : (((customersByDate C).map Prod.fst).insertionSort
      (fun a b => firstTime (customersByDate C) b ≤
        firstTime (customersByDate C) a)).Nodup :=
    hperm.nodup_iff.mpr hnd
  have hstrict : List.Pairwise (fun a b => b < a)
      (((customersByDate C).map Prod.fst).insertionSort
        (fun a b => firstTime (customersByDate C) b ≤
          firstTime (customersByDate C) a)) := by
    refine List.Pairwise.imp_of_mem ?_ (hsorted.and hndS)
    intro a b ha hb hab
    have ha' : a ∈ (customersByDate C).map Prod.fst := hperm.subset ha
    have hb' : b ∈ (customersByDate C).map Prod.fst := hperm.subset hb
    rcases Nat.lt_trichotomy b a with h | h | h
    · exact h
    · exact absurd h.symm hab.2
    · exact absurd (hmono a ha' b hb' h) (Nat.not_lt.mpr hab.1)
  refine ⟨?_, ?_, ?_, ?_⟩
  · intro k hk
    rw [hrec] at hk
    exact hperm.subset (List.take_subset 3 _ hk)
  · rw [hrec, List.length_take, List.length_insertionSort, List.length_map]
  · rw [hrec]
    exact List.Pairwise.sublist (List.take_sublist 3 _) hstrict
  · intro k hk hnot k' hk'
    rw [hrec] at hnot hk'
    have hkS : k ∈ ((customersByDate C).map Prod.fst).insertionSort
        (fun a b => firstTime (customersByDate C) b ≤
          firstTime (customersByDate C) a) :=
      hperm.mem_iff.mpr hk
    have hsplit := List.take_append_drop 3
      (((customersByDate C).map Prod.fst).insertionSort
        (fun a b => firstTime (customersByDate C) b ≤
          firstTime (customersByDate C) a))
    have hkdrop : k ∈ (((customersByDate C).map Prod.fst).insertionSort
        (fun a b => firstTime (customersByDate C) b ≤
          firstTime (customersByDate C) a)).drop 3 := by
      rcases List.mem_append.mp (by rw [hsplit]; exact hkS) with h | h
      · exact absurd h hnot
      · exact h
    have hacross := (List.pairwise_append.mp (by rw [hsplit]; exact hstrict)).2.2
    exact hacross k' hk' k hkdrop

end Hasoon

namespace Hasoon

/-- Satisfiability of the sortedness hypothesis of `recentDates_spec`,
checked on a concrete two-day, newest-first customer list. -/
theorem recentDates_spec_witness :
    List.Pairwise (fun a b => b.createdAt ≤ a.createdAt) [sampleB, sampleA] ∧
    ((∀ k ∈ recentDates [sampleB, sampleA],
        k ∈ (customersByDate [sampleB, sampleA]).map Prod.fst) ∧
      (recentDates [sampleB, sampleA]).length =
        min 3 (customersByDate [sampleB, sampleA]).length ∧
      List.Pairwise (fun a b => b < a) (recentDates [sampleB, sampleA]) ∧
      (∀ k ∈ (customersByDate [sampleB, sampleA]).map Prod.fst,
        k ∉ recentDates [sampleB, sampleA] →
        ∀ k' ∈ recentDates [sampleB, sampleA], k < k')) :=
  ⟨by decide, recentDates_spec [sampleB, sampleA] (by decide)⟩

end Hasoon
